import Mathlib

/-!
Verification of the Riegeli framed-storage core against its specification.

The development shallowly embeds the C++ sources:
* `riegeli/records/chunk_reader.cc` (chunk reading, recovery, seeking),
* `internal::ReadVarint32Slow` / `internal::ReadVarint64Slow`,
* `internal::Compressor::EncodeAndClose`,
* `ChunkDecoder::SetIndex`.

Machine integers are modelled as `Nat` with explicit `% 2 ^ w` where overflow
can occur.  The byte source is a pure list of bytes with an explicit cursor.
Code of the repository that is referenced but whose definition is not among
the sources (block geometry from `block.h`, the hash primitive, saturating
arithmetic from `base.h`, the varint writer) is modelled from the
specification; each such definition carries a doc comment saying so.
-/

namespace Riegeli

/-! ## List helpers -/

theorem getD_append_lt (l1 l2 : List Nat) (i d : Nat) (h : i < l1.length) :
    (l1 ++ l2).getD i d = l1.getD i d := by
  induction l1 generalizing i with
  | nil => simp at h
  | cons a t ih =>
    cases i with
    | zero => rfl
    | succ j =>
      simp only [List.cons_append, List.getD_cons_succ]
      exact ih j (by simpa using h)

theorem getD_append_ge (l1 l2 : List Nat) (i d : Nat) (h : l1.length ≤ i) :
    (l1 ++ l2).getD i d = l2.getD (i - l1.length) d := by
  induction l1 generalizing i with
  | nil => simp
  | cons a t ih =>
    cases i with
    | zero => simp at h
    | succ j =>
      simp only [List.cons_append, List.getD_cons_succ, List.length_cons]
      rw [ih j (by simpa using h)]
      simp [Nat.succ_sub_succ]

theorem getD_mem (l : List Nat) (i d : Nat) (h : i < l.length) :
    l.getD i d ∈ l := by
  induction l generalizing i with
  | nil => simp at h
  | cons a t ih =>
    cases i with
    | zero => simp
    | succ j =>
      simp only [List.getD_cons_succ]
      exact List.mem_cons_of_mem _ (ih j (by simpa using h))

theorem take_append_len (l1 l2 : List Nat) (k : Nat) :
    (l1 ++ l2).take (l1.length + k) = l1 ++ l2.take k := by
  induction l1 with
  | nil => simp
  | cons a t ih => simp [Nat.succ_add, ih]

theorem drop_append_len (l1 l2 : List Nat) (k : Nat) :
    (l1 ++ l2).drop (l1.length + k) = l2.drop k := by
  induction l1 with
  | nil => simp
  | cons a t ih => simp [Nat.succ_add, ih]

/-! ## Little-endian decoding and saturating arithmetic -/

/-- Little-endian interpretation of a byte list as an unsigned integer. -/
def leN (bs : List Nat) : Nat := bs.foldr (fun b acc => b + 256 * acc) 0

/-- Modelled from the spec: `SaturatingAdd` from `riegeli/base/base.h`
(not among the sources): 64-bit addition that saturates at `2 ^ 64 - 1`
instead of wrapping. -/
def saturatingAdd (a b : Nat) : Nat := min (a + b) (2 ^ 64 - 1)

/-! ## Block geometry (`riegeli/records/block.h`, modelled from the spec) -/

/-- Modelled from the spec: `BlockSize` is a fixed power of two, 64 KiB. -/
def kBlockSize : Nat := 65536

/-- Modelled from the spec: a block header occupies 24 bytes. -/
def blockHeaderSize : Nat := 24

/-- Modelled from the spec: a chunk header occupies 40 bytes. -/
def chunkHeaderSize : Nat := 40

/-- Modelled from the spec: `IsBlockBoundary(P) = (P mod BlockSize == 0)`. -/
def isBlockBoundary (p : Nat) : Bool := p % kBlockSize = 0

/-- Modelled from the spec: `RemainingInBlock(P) = BlockSize - (P mod BlockSize)`. -/
def remainingInBlock (p : Nat) : Nat := kBlockSize - p % kBlockSize

/-- Modelled from the spec: `RemainingInBlockHeader(P)`: if
`P mod BlockSize < 24` return `24 - (P mod BlockSize)`, else 0. -/
def remainingInBlockHeader (p : Nat) : Nat :=
  if p % kBlockSize < blockHeaderSize then blockHeaderSize - p % kBlockSize else 0

/-- Modelled from the spec: `PossibleChunkBoundary(P)` holds iff
`P mod BlockSize` is not within the block-header region `[1, 24)`
(`P mod BlockSize == 0` is allowed: the header precedes the chunk). -/
def isPossibleChunkBoundary (p : Nat) : Bool :=
  p % kBlockSize = 0 ∨ blockHeaderSize ≤ p % kBlockSize

/-- Modelled from the spec: number of block boundaries (multiples of
`BlockSize`) in the half-open interval `[start, end)`. -/
def numBoundaries (s e : Nat) : Nat :=
  if s < e then (e - 1) / kBlockSize + 1 - ((s + kBlockSize - 1) / kBlockSize) else 0

/-- Modelled from the spec: `DistanceWithoutOverhead(start, end)`: number of
non-block-header bytes in `[start, end)` — subtracts 24 for each block
boundary touched. -/
def distanceWithoutOverhead (s e : Nat) : Nat :=
  (e - s) - blockHeaderSize * numBoundaries s e

/-- Modelled from the spec: the simulation loop of `ChunkEnd`: walk from the
current position, skipping the block-header bytes at every block boundary
crossed (including a boundary at the start), until `remaining` logical chunk
bytes have been consumed.  Fuel-based so that the definition is structural;
`chunkEnd` supplies enough fuel. -/
def chunkEndLoop : Nat → Nat → Nat → Nat
  | 0, cur, _ => cur
  | fuel + 1, cur, remaining =>
    if remaining = 0 then cur
    else
      let cur2 := cur + remainingInBlockHeader cur
      let step := min remaining (remainingInBlock cur2)
      chunkEndLoop fuel (cur2 + step) (remaining - step)

/-- Modelled from the spec: `ChunkEnd(header, P)` for a chunk of payload size
`dataSize` starting at `P`: the file offset just after the chunk, accounting
for the 40-byte chunk header and every block header in the extent of the chunk. -/
def chunkEnd (dataSize pos : Nat) : Nat :=
  chunkEndLoop (chunkHeaderSize + dataSize + 1) pos (chunkHeaderSize + dataSize)

theorem remainingInBlock_pos (p : Nat) : 1 ≤ remainingInBlock p := by
  have h : p % kBlockSize < kBlockSize := Nat.mod_lt _ (by decide)
  unfold remainingInBlock
  omega

theorem chunkEndLoop_ge (fuel : Nat) :
    ∀ cur remaining, remaining ≤ fuel → cur + remaining ≤ chunkEndLoop fuel cur remaining := by
  induction fuel with
  | zero =>
    intro cur remaining h
    have h0 : remaining = 0 := Nat.le_zero.mp h
    subst h0
    simp [chunkEndLoop]
  | succ f ih =>
    intro cur remaining h
    unfold chunkEndLoop
    by_cases h0 : remaining = 0
    · simp [h0]
    · simp only [h0, if_false]
      have hstep1 : 1 ≤ min remaining (remainingInBlock (cur + remainingInBlockHeader cur)) := by
        have := remainingInBlock_pos (cur + remainingInBlockHeader cur)
        omega
      have hstepr : min remaining (remainingInBlock (cur + remainingInBlockHeader cur)) ≤ remaining :=
        Nat.min_le_left _ _
      have := ih (cur + remainingInBlockHeader cur +
          min remaining (remainingInBlock (cur + remainingInBlockHeader cur)))
        (remaining - min remaining (remainingInBlock (cur + remainingInBlockHeader cur)))
        (by omega)
      omega

/-- The chunk end lies at least the header size plus the payload size past the
chunk start. -/
theorem chunkEnd_ge (dataSize pos : Nat) :
    pos + chunkHeaderSize + dataSize ≤ chunkEnd dataSize pos := by
  have h := chunkEndLoop_ge (chunkHeaderSize + dataSize + 1) pos (chunkHeaderSize + dataSize)
    (by omega)
  unfold chunkEnd
  omega

/-! ## Varint reading (`internal::ReadVarint32Slow` / `ReadVarint64Slow`)

The two source functions differ only in the word width `w` (32 or 64), the
maximum encoding length `maxLen` (5 or 10) and the derived range limit
`2 ^ (w - (maxLen - 1) * 7)` for the final byte.  They are embedded as one
function parameterised by `w` and `maxLen`.  Arithmetic on the accumulator is
performed modulo `2 ^ w`, exactly as the C++ unsigned arithmetic does;
`byte - 1` is the unsigned wrap-around `(byte + 2 ^ w - 1) % 2 ^ w`. -/

/-- The inner `do`/`while` loop of `ReadVarint*Slow`.  `acc` is the
accumulator so far, `shift` the shift used for the previous byte; each
iteration reads one more byte `b` and performs
`acc += (b - 1) << (shift + 7)` in `w`-bit unsigned arithmetic.
Returns the decoded value together with the unconsumed rest of the stream,
or `none` on failure. -/
def varintLoop (w maxLen : Nat) : List Nat → Nat → Nat → Option (Nat × List Nat)
  | [], _, _ => Option.none
  | b :: rest, acc, shift =>
    let shift2 := shift + 7
    let acc2 := (acc + ((b + (2 ^ w - 1)) % 2 ^ w) * 2 ^ shift2) % 2 ^ w
    if shift2 = (maxLen - 1) * 7 then
      if 2 ^ (w - (maxLen - 1) * 7) ≤ b then Option.none
      else if b = 0 then Option.none
      else some (acc2, rest)
    else if 128 ≤ b then varintLoop w maxLen rest acc2 shift2
    else if b = 0 then Option.none
    else some (acc2, rest)

/-- Top level of `ReadVarint*Slow` from the source: reads one varint from the front of the
byte stream.  On success returns the decoded value and the rest of the
stream. -/
def readVarint (w maxLen : Nat) (bs : List Nat) : Option (Nat × List Nat) :=
  match bs with
  | [] => Option.none
  | b :: rest => if b < 128 then some (b, rest) else varintLoop w maxLen rest b 0

/-- Instance `ReadVarint64Slow`: reads an unsigned LEB128 value of up to 10 bytes into
a 64-bit word. -/
def readVarint64 (bs : List Nat) : Option (Nat × List Nat) := readVarint 64 10 bs

/-- Instance `ReadVarint32Slow`: reads an unsigned LEB128 value of up to 5 bytes into
a 32-bit word. -/
def readVarint32 (bs : List Nat) : Option (Nat × List Nat) := readVarint 32 5 bs

/-- The unsigned LEB128 value of a byte list: the sum over bytes of
`payload_i << 7 * i` where `payload_i` is the low 7 bits of byte `i`. -/
def lebValue : List Nat → Nat
  | [] => 0
  | b :: rest => b % 128 + 128 * lebValue rest

/-- Failure condition 1 of the claim: the stream ends mid-varint (every
available byte carries a continuation bit and the stream is shorter than the
maximum encoding length). -/
def EndsMidVarint (maxLen : Nat) (bs : List Nat) : Prop :=
  bs.length < maxLen ∧ ∀ b ∈ bs, 128 ≤ b

/-- Failure condition 2 of the claim: the final byte of a maximum-length
encoding has high bits outside the representable range. -/
def FinalByteRangeFail (w maxLen : Nat) (bs : List Nat) : Prop :=
  maxLen ≤ bs.length ∧ (∀ i < maxLen - 1, 128 ≤ bs.getD i 0) ∧
    2 ^ (w - (maxLen - 1) * 7) ≤ bs.getD (maxLen - 1) 0

/-- Failure condition 3 of the claim: a multi-byte encoding has a trailing
zero byte (overlong encoding). -/
def OverlongVarint (maxLen : Nat) (bs : List Nat) : Prop :=
  ∃ k, 2 ≤ k ∧ k ≤ maxLen ∧ k ≤ bs.length ∧
    (∀ i < k - 1, 128 ≤ bs.getD i 0) ∧ bs.getD (k - 1) 0 = 0

theorem lebValue_lt (cs : List Nat) : lebValue cs < 128 ^ cs.length := by
  induction cs with
  | nil => simp [lebValue]
  | cons a t ih =>
    simp only [lebValue, List.length_cons, pow_succ]
    have hmod : a % 128 < 128 := Nat.mod_lt _ (by norm_num)
    have h1 : 128 * (lebValue t + 1) ≤ 128 * 128 ^ t.length := Nat.mul_le_mul_left _ ih
    have h2 : 128 * 128 ^ t.length = 128 ^ t.length * 128 := Nat.mul_comm _ _
    omega

theorem lebValue_append_singleton (cs : List Nat) (b : Nat) :
    lebValue (cs ++ [b]) = lebValue cs + b % 128 * 128 ^ cs.length := by
  induction cs with
  | nil => simp [lebValue]
  | cons a t ih =>
    simp only [List.cons_append, lebValue, List.length_cons, pow_succ]
    have ih2 : lebValue (t.append [b]) = lebValue t + b % 128 * 128 ^ t.length := ih
    rw [ih2]
    ring

/-- One accumulator step of the varint loop, on the no-wrap-around path:
adding `(b - 1) << 7 m` in `w`-bit arithmetic to `L + 128 ^ m` yields exactly
`L + b * 128 ^ m` whenever `1 ≤ b` and the result fits in `w` bits. -/
theorem varint_acc_step (w m b L : Nat) (hb1 : 1 ≤ b)
    (hlt : L + b * 128 ^ m < 2 ^ w) :
    (L + 128 ^ m + (b + (2 ^ w - 1)) % 2 ^ w * 2 ^ (7 * m)) % 2 ^ w =
      L + b * 128 ^ m := by
  obtain ⟨c, rfl⟩ : ∃ c, b = 1 + c := ⟨b - 1, by omega⟩
  have hpos : 1 ≤ 128 ^ m := Nat.one_le_pow _ _ (by norm_num)
  have hble : 1 + c ≤ (1 + c) * 128 ^ m := Nat.le_mul_of_pos_right _ (by omega)
  have hbw : 1 + c < 2 ^ w := by omega
  have hsub : (1 + c + (2 ^ w - 1)) % 2 ^ w = c := by
    have h : 1 + c + (2 ^ w - 1) = c + 2 ^ w := by omega
    rw [h, Nat.add_mod_right]
    exact Nat.mod_eq_of_lt (by omega)
  have hpow : (2 : Nat) ^ (7 * m) = 128 ^ m := by
    rw [Nat.pow_mul]
  rw [hsub, hpow]
  have heq : L + 128 ^ m + c * 128 ^ m = L + (1 + c) * 128 ^ m := by ring
  rw [heq, Nat.mod_eq_of_lt hlt]

/-- Overflow bound for a non-final varint byte: any byte value below 256 at a
shift satisfying `7 m + 8 ≤ w` keeps the accumulator below `2 ^ w`. -/
theorem varint_bound_mid (w m b L : Nat) (hL : L < 128 ^ m) (hb : b < 256)
    (hw : 7 * m + 8 ≤ w) : L + b * 128 ^ m < 2 ^ w := by
  have h1 : b * 128 ^ m ≤ 255 * 128 ^ m := Nat.mul_le_mul_right _ (by omega)
  have h2 : (2 : Nat) ^ (7 * m + 8) = 128 ^ m * 256 := by
    rw [pow_add, Nat.pow_mul]
    norm_num
  have h3 : 2 ^ (7 * m + 8) ≤ 2 ^ w := Nat.pow_le_pow_right (by norm_num) hw
  have h4 : (128 : Nat) ^ m * 256 = 255 * 128 ^ m + 128 ^ m := by ring
  omega

/-- Overflow bound for the final possible varint byte: a byte value within
the representable range keeps the accumulator below `2 ^ w`. -/
theorem varint_bound_final (w m b L : Nat) (hL : L < 128 ^ m)
    (hb : b < 2 ^ (w - m * 7)) (hw : m * 7 ≤ w) : L + b * 128 ^ m < 2 ^ w := by
  have h1 : (b + 1) * 128 ^ m ≤ 2 ^ (w - m * 7) * 128 ^ m :=
    Nat.mul_le_mul_right _ (by omega)
  have h2 : (2 : Nat) ^ (w - m * 7) * 128 ^ m = 2 ^ w := by
    have hp : (128 : Nat) ^ m = 2 ^ (7 * m) := by
      rw [Nat.pow_mul]
    rw [hp, ← pow_add]
    congr 1
    omega
  have h3 : (b + 1) * 128 ^ m = b * 128 ^ m + 128 ^ m := by ring
  omega

theorem cont_getD (cs rest : List Nat) (hcs : ∀ b ∈ cs, 128 ≤ b ∧ b < 256) :
    ∀ i < cs.length, 128 ≤ (cs ++ rest).getD i 0 := by
  intro i hi
  rw [getD_append_lt _ _ _ _ hi]
  exact (hcs _ (getD_mem _ _ _ hi)).1

theorem getD_append_at_len (cs : List Nat) (b : Nat) (r2 : List Nat) :
    (cs ++ b :: r2).getD cs.length 0 = b := by
  rw [getD_append_ge _ _ _ _ (le_refl _)]
  simp

theorem take_append_succ (cs : List Nat) (b : Nat) (r2 : List Nat) :
    (cs ++ b :: r2).take (cs.length + 1) = cs ++ [b] := by
  rw [take_append_len cs (b :: r2) 1]
  rfl

theorem drop_append_succ (cs : List Nat) (b : Nat) (r2 : List Nat) :
    (cs ++ b :: r2).drop (cs.length + 1) = r2 := by
  rw [drop_append_len cs (b :: r2) 1]
  rfl

/-- A consumed last byte that is nonzero and has no continuation bit rules
out the overlong-failure condition. -/
theorem not_overlong_of_term (maxLen : Nat) (cs : List Nat) (b : Nat) (r2 : List Nat)
    (hcs : ∀ x ∈ cs, 128 ≤ x ∧ x < 256) (hb0 : b ≠ 0) (hb128 : b < 128) :
    ¬ OverlongVarint maxLen (cs ++ b :: r2) := by
  rintro ⟨k, hk2, _, _, hcont, hzero⟩
  rcases Nat.lt_trichotomy (k - 1) cs.length with hlt | heq | hgt
  · have h := cont_getD cs (b :: r2) hcs (k - 1) hlt
    omega
  · rw [heq, getD_append_at_len] at hzero
    exact hb0 hzero
  · have h := hcont cs.length (by omega)
    rw [getD_append_at_len] at h
    omega

/-- Main loop lemma for `varintLoop`: called with the consumed bytes `cs`
(all carrying continuation bits), the accumulator `lebValue cs + 128 ^ |cs|`
and shift `7 |cs| - 7`, the loop fails exactly on the three claimed failure
conditions of the full stream `cs ++ rest`, and on success returns the
LEB128 value of the consumed prefix. -/
theorem varintLoop_spec (w maxLen : Nat) (hw1 : 7 * maxLen ≤ w + 6)
    (hw2 : w ≤ 7 * maxLen) (hml : 2 ≤ maxLen) :
    ∀ (rest cs : List Nat), cs ≠ [] → cs.length ≤ maxLen - 1 →
      (∀ b ∈ cs, 128 ≤ b ∧ b < 256) → (∀ b ∈ rest, b < 256) →
      (varintLoop w maxLen rest (lebValue cs + 128 ^ cs.length) (7 * cs.length - 7)
            = Option.none ↔
          EndsMidVarint maxLen (cs ++ rest) ∨ FinalByteRangeFail w maxLen (cs ++ rest) ∨
            OverlongVarint maxLen (cs ++ rest)) ∧
      ∀ v rest2,
        varintLoop w maxLen rest (lebValue cs + 128 ^ cs.length) (7 * cs.length - 7)
            = some (v, rest2) →
        ∃ k, k ≤ (cs ++ rest).length ∧ rest2 = (cs ++ rest).drop k ∧
          v = lebValue ((cs ++ rest).take k) := by
  intro rest
  induction rest with
  | nil =>
    intro cs hne hlen hcs _
    constructor
    · constructor
      · intro _
        refine Or.inl ⟨?_, ?_⟩
        · simpa using (by omega : cs.length < maxLen)
        · intro x hx
          exact (hcs x (by simpa using hx)).1
      · intro _
        rfl
    · intro v rest2 h
      simp [varintLoop] at h
  | cons b r2 ih =>
    intro cs hne hlen hcs hrest
    have hm1 : 1 ≤ cs.length := by
      cases cs
      · exact absurd rfl hne
      · simp
    have hb256 : b < 256 := hrest b (by simp)
    have hshift : 7 * cs.length - 7 + 7 = 7 * cs.length := by omega
    have hr2 : ∀ x ∈ r2, x < 256 := fun x hx => hrest x (by simp [hx])
    have hlenbs : (cs ++ b :: r2).length = cs.length + 1 + r2.length := by
      rw [List.length_append, List.length_cons]
      omega
    simp only [varintLoop, hshift]
    by_cases hmax : cs.length = maxLen - 1
    · -- the byte at index `cs.length` is the last possible byte
      have hgd : (cs ++ b :: r2).getD (maxLen - 1) 0 = b := by
        rw [← hmax]
        exact getD_append_at_len cs b r2
      rw [if_pos (by omega : 7 * cs.length = (maxLen - 1) * 7)]
      by_cases hrange : 2 ^ (w - (maxLen - 1) * 7) ≤ b
      · -- range failure
        rw [if_pos hrange]
        constructor
        · constructor
          · intro _
            refine Or.inr (Or.inl ⟨by omega, ?_, ?_⟩)
            · intro i hi
              exact cont_getD cs (b :: r2) hcs i (by omega)
            · rw [hgd]
              exact hrange
          · intro _
            rfl
        · intro v rest2 h
          simp at h
      · rw [if_neg hrange]
        have hrle : 2 ^ (w - (maxLen - 1) * 7) ≤ 128 := by
          calc 2 ^ (w - (maxLen - 1) * 7) ≤ 2 ^ 7 :=
                Nat.pow_le_pow_right (by norm_num) (by omega)
          _ = 128 := by norm_num
        have hblt : b < 128 := by omega
        by_cases hzero : b = 0
        · -- overlong failure at the maximum length
          rw [if_pos hzero]
          constructor
          · constructor
            · intro _
              refine Or.inr (Or.inr ⟨maxLen, hml, le_refl _, by omega, ?_, ?_⟩)
              · intro i hi
                exact cont_getD cs (b :: r2) hcs i (by omega)
              · rw [hgd]
                exact hzero
            · intro _
              rfl
          · intro v rest2 h
            simp at h
        · -- success on the maximum-length byte
          rw [if_neg hzero]
          have hbfin : b < 2 ^ (w - cs.length * 7) := by
            rw [hmax]
            omega
          have hacc := varint_acc_step w cs.length b (lebValue cs) (by omega)
            (varint_bound_final w cs.length b (lebValue cs) (lebValue_lt cs) hbfin
              (by omega))
          rw [hacc]
          constructor
          · constructor
            · intro h
              exact absurd h (by simp)
            · rintro (⟨_, hall⟩ | ⟨_, _, hfin⟩ | hO)
              · have := hall b (by simp)
                omega
              · rw [hgd] at hfin
                omega
              · exact absurd hO (not_overlong_of_term maxLen cs b r2 hcs hzero hblt)
          · intro v rest2 h
            simp only [Option.some.injEq, Prod.mk.injEq] at h
            obtain ⟨hv, hr⟩ := h
            refine ⟨cs.length + 1, by rw [hlenbs]; omega, ?_, ?_⟩
            · rw [drop_append_succ, hr]
            · rw [take_append_succ, lebValue_append_singleton, ← hv,
                Nat.mod_eq_of_lt hblt]
    · -- not the last possible byte
      rw [if_neg (by omega : ¬ 7 * cs.length = (maxLen - 1) * 7)]
      have hltm : cs.length < maxLen - 1 := by omega
      by_cases hcont : 128 ≤ b
      · -- continuation bit set: recurse
        rw [if_pos hcont]
        have hacc := varint_acc_step w cs.length b (lebValue cs) (by omega)
          (varint_bound_mid w cs.length b (lebValue cs) (lebValue_lt cs) hb256
            (by omega))
        rw [hacc]
        obtain ⟨c, rfl⟩ : ∃ c, b = 128 + c := ⟨b - 128, by omega⟩
        have hcsb : ∀ x ∈ cs ++ [128 + c], 128 ≤ x ∧ x < 256 := by
          intro x hx
          rcases List.mem_append.mp hx with hx1 | hx2
          · exact hcs x hx1
          · have : x = 128 + c := by simpa using hx2
            omega
        have ihres := ih (cs ++ [128 + c]) (by simp) (by simp; omega) hcsb hr2
        have hlen1 : (cs ++ [128 + c]).length = cs.length + 1 := by simp
        have hacc2 : lebValue (cs ++ [128 + c]) + 128 ^ (cs ++ [128 + c]).length =
            lebValue cs + (128 + c) * 128 ^ cs.length := by
          rw [lebValue_append_singleton, hlen1, pow_succ]
          have hcmod : (128 + c) % 128 = c := by omega
          rw [hcmod]
          ring
        have hs2 : 7 * (cs ++ [128 + c]).length - 7 = 7 * cs.length := by
          rw [hlen1]
          omega
        rw [hacc2, hs2, List.append_assoc, List.singleton_append] at ihres
        exact ihres
      · rw [if_neg hcont]
        have hblt : b < 128 := by omega
        by_cases hzero : b = 0
        · -- overlong failure before the maximum length
          rw [if_pos hzero]
          constructor
          · constructor
            · intro _
              refine Or.inr (Or.inr ⟨cs.length + 1, by omega, by omega,
                by rw [hlenbs]; omega, ?_, ?_⟩)
              · intro i hi
                exact cont_getD cs (b :: r2) hcs i (by omega)
              · rw [show cs.length + 1 - 1 = cs.length from rfl, getD_append_at_len]
                exact hzero
            · intro _
              rfl
          · intro v rest2 h
            simp at h
        · -- success before the maximum length
          rw [if_neg hzero]
          have hacc := varint_acc_step w cs.length b (lebValue cs) (by omega)
            (varint_bound_mid w cs.length b (lebValue cs) (lebValue_lt cs) hb256
              (by omega))
          rw [hacc]
          constructor
          · constructor
            · intro h
              exact absurd h (by simp)
            · rintro (⟨_, hall⟩ | ⟨_, hfst, _⟩ | hO)
              · have := hall b (by simp)
                omega
              · have := hfst cs.length (by omega)
                rw [getD_append_at_len] at this
                omega
              · exact absurd hO (not_overlong_of_term maxLen cs b r2 hcs hzero hblt)
          · intro v rest2 h
            simp only [Option.some.injEq, Prod.mk.injEq] at h
            obtain ⟨hv, hr⟩ := h
            refine ⟨cs.length + 1, by rw [hlenbs]; omega, ?_, ?_⟩
            · rw [drop_append_succ, hr]
            · rw [take_append_succ, lebValue_append_singleton, ← hv,
                Nat.mod_eq_of_lt hblt]

/-- The full correctness statement for one instance of `readVarint`:
failure exactly on the three claimed conditions, and on success the value is
the unsigned LEB128 value of the consumed prefix. -/
def VarintReadCorrect (w maxLen : Nat) (bs : List Nat) : Prop :=
  (readVarint w maxLen bs = Option.none ↔
      EndsMidVarint maxLen bs ∨ FinalByteRangeFail w maxLen bs ∨
        OverlongVarint maxLen bs) ∧
    ∀ v rest2, readVarint w maxLen bs = some (v, rest2) →
      ∃ k, k ≤ bs.length ∧ rest2 = bs.drop k ∧ v = lebValue (bs.take k)

theorem readVarint_correct_general (w maxLen : Nat) (hw1 : 7 * maxLen ≤ w + 6)
    (hw2 : w ≤ 7 * maxLen) (hml : 2 ≤ maxLen) (bs : List Nat)
    (hbs : ∀ b ∈ bs, b < 256) : VarintReadCorrect w maxLen bs := by
  match bs with
  | [] =>
    constructor
    · constructor
      · intro _
        exact Or.inl ⟨by simpa using (by omega : 0 < maxLen), by simp⟩
      · intro _
        rfl
    · intro v rest2 h
      simp [readVarint] at h
  | b :: rest =>
    have hb256 : b < 256 := hbs b (by simp)
    have hrest : ∀ x ∈ rest, x < 256 := fun x hx => hbs x (by simp [hx])
    by_cases hb : b < 128
    · -- single-byte encoding
      have hread : readVarint w maxLen (b :: rest) = some (b, rest) := by
        simp [readVarint, hb]
      constructor
      · rw [hread]
        constructor
        · intro h
          exact absurd h (by simp)
        · rintro (⟨_, hall⟩ | ⟨_, hfst, _⟩ | ⟨k, hk2, _, _, hcont, _⟩)
          · have := hall b (by simp)
            omega
          · have := hfst 0 (by omega)
            simp only [List.getD_cons_zero] at this
            omega
          · have := hcont 0 (by omega)
            simp only [List.getD_cons_zero] at this
            omega
      · intro v rest2 h
        rw [hread] at h
        simp only [Option.some.injEq, Prod.mk.injEq] at h
        obtain ⟨hv, hr⟩ := h
        exact ⟨1, by simp, by simp [hr], by simp [lebValue, ← hv, Nat.mod_eq_of_lt hb]⟩
    · -- multi-byte encoding: enter the loop with consumed prefix `[b]`
      have hread : readVarint w maxLen (b :: rest) = varintLoop w maxLen rest b 0 := by
        simp [readVarint, hb]
      have hspec := varintLoop_spec w maxLen hw1 hw2 hml rest [b] (by simp)
        (by simp; omega) (by intro x hx; simp at hx; omega) hrest
      have hacc : lebValue [b] + 128 ^ ([b] : List Nat).length = b := by
        simp [lebValue]
        omega
      have hsh : 7 * ([b] : List Nat).length - 7 = 0 := by simp
      rw [hacc, hsh, List.singleton_append] at hspec
      rw [VarintReadCorrect, hread]
      exact hspec

/-- C5: `ReadVarint64Slow` and `ReadVarint32Slow` fail exactly when the
stream ends mid-varint, when the final byte of a maximum-length encoding has
high bits outside the representable range, or when a multi-byte encoding has
a trailing zero byte (overlong encoding); on success they return the
unsigned LEB128 value (the sum over consumed bytes of `payload_i << 7 i`)
despite the optimised accumulation `acc += (byte - 1) << shift`. -/
theorem readVarint_spec (bs : List Nat) (hbs : ∀ b ∈ bs, b < 256) :
    VarintReadCorrect 64 10 bs ∧ VarintReadCorrect 32 5 bs :=
  ⟨readVarint_correct_general 64 10 (by norm_num) (by norm_num) (by norm_num) bs hbs,
   readVarint_correct_general 32 5 (by norm_num) (by norm_num) (by norm_num) bs hbs⟩

/-- Witness for C5 at the concrete stream `[133, 3, 7]`. -/
theorem readVarint_spec_witness :
    (∀ b ∈ [133, 3, 7], b < 256) ∧
      (VarintReadCorrect 64 10 [133, 3, 7] ∧ VarintReadCorrect 32 5 [133, 3, 7]) :=
  ⟨by decide, readVarint_spec [133, 3, 7] (by decide)⟩

/-! ## Compressor (`riegeli/chunk_encoding/compressor.cc`) -/

/-- Type `CompressionType` from `riegeli/chunk_encoding/constants.h`: none,
Brotli or Zstd. -/
inductive CompressionType
  | cnone
  | cbrotli
  | czstd
deriving DecidableEq

/-- Modelled from the spec: `WriteVarint64` from
`riegeli/bytes/writer_utils.h` (not among the sources): writes `n` in
unsigned LEB128, 7 bits per byte, continuation bit on all but the last
byte.  Fuel-based loop; `writeVarint64` supplies enough fuel. -/
def writeVarintGo : Nat → Nat → List Nat
  | 0, _ => []
  | f + 1, n => if n < 128 then [n] else (n % 128 + 128) :: writeVarintGo f (n / 128)

/-- Modelled from the spec: the LEB128 encoding of `n`. -/
def writeVarint64 (n : Nat) : List Nat := writeVarintGo (n + 1) n

/-- State of `internal::Compressor` just before `EncodeAndClose`:
the configured compression type, the number of bytes appended to the
internal writer (`writer()->pos()`), and the bytes accumulated in
`compressed_`. -/
structure CompressorState where
  healthy : Bool
  ctype : CompressionType
  writerPos : Nat
  compressed : List Nat
deriving DecidableEq

/-- Modelled from the spec (the codec writers are external collaborators):
a healthy compressor over codec `codec` to which the bytes `data` have been
appended.  With `CompressionType::kNone` the internal writer is a plain
`ChainWriter` into `compressed_`, so `compressed_` holds `data` verbatim;
otherwise the codec writer has produced its framed compressed blob
`codec data`. -/
def compressorWith (t : CompressionType) (codec : List Nat → List Nat)
    (data : List Nat) : CompressorState :=
  { healthy := true, ctype := t, writerPos := data.length,
    compressed := if t = CompressionType.cnone then data else codec data }

/-- Embeds `Compressor::EncodeAndClose(Writer* dest)`: if unhealthy, fail;
otherwise write a varint of the uncompressed size to `dest` unless the
compression type is `kNone`, then write `compressed_`.  Returns the success
flag and the new contents of `dest`. -/
def encodeAndClose (c : CompressorState) (dest : List Nat) : Bool × List Nat :=
  if ¬ c.healthy then (false, dest)
  else
    (true,
      dest ++
        (if c.ctype ≠ CompressionType.cnone then writeVarint64 c.writerPos else []) ++
        c.compressed)

/-- C8: for a healthy compressor over appended bytes `data`,
`EncodeAndClose(dest)` appends to `dest` exactly the accumulated bytes
verbatim when the compression type is `kNone`, and otherwise a varint of the
uncompressed byte count followed by the framed compressed blob of the codec, with
nothing prepended in the `kNone` case. -/
theorem encodeAndClose_spec (t : CompressionType) (codec : List Nat → List Nat)
    (data dest : List Nat) :
    encodeAndClose (compressorWith t codec data) dest =
      (true,
        dest ++
          match t with
          | CompressionType.cnone => data
          | _ => writeVarint64 data.length ++ codec data) := by
  cases t <;> simp [encodeAndClose, compressorWith]

/-! ## ChunkDecoder (`riegeli/chunk_encoding/chunk_decoder.h`) -/

/-- State of a `ChunkDecoder`: health flag, the sorted record end positions
`limits_`, the current record index `index_` and the position of the values
reader. -/
structure ChunkDecoderState where
  healthy : Bool
  limits : List Nat
  index : Nat
  valuesPos : Nat
deriving DecidableEq

/-- Embeds `ChunkDecoder::num_records()`: the number of limits. -/
def ChunkDecoderState.numRecords (d : ChunkDecoderState) : Nat := d.limits.length

/-- The start position of the record at index `idx`: `0` for the first
record, otherwise the end position of the previous record (the documented decoder invariant `(index_ == 0 ? 0 : limits_[index_ - 1]) ==
values_reader_.pos()`). -/
def ChunkDecoderState.recordStart (d : ChunkDecoderState) (idx : Nat) : Nat :=
  if idx = 0 then 0 else d.limits.getD (idx - 1) 0

/-- Embeds `ChunkDecoder::SetIndex(uint64_t index)`: clamps the index to
`num_records()` and seeks the values reader to the start of that record. -/
def ChunkDecoderState.setIndex (d : ChunkDecoderState) (i : Nat) : ChunkDecoderState :=
  let idx := min i d.limits.length
  { d with index := idx, valuesPos := d.recordStart idx }

/-- C9: for a healthy `ChunkDecoder`, after `SetIndex(i)` the current record
index equals `min i num_records()` and the values reader is repositioned to
the start of the record at that index (0 when the index is 0), so the
invariant `index() ≤ num_records()` is preserved. -/
theorem setIndex_spec (d : ChunkDecoderState) (i : Nat) (_hd : d.healthy = true) :
    (d.setIndex i).index = min i d.numRecords ∧
      (d.setIndex i).valuesPos =
        (if min i d.numRecords = 0 then 0
         else d.limits.getD (min i d.numRecords - 1) 0) ∧
      (d.setIndex i).index ≤ (d.setIndex i).numRecords := by
  refine ⟨rfl, rfl, ?_⟩
  simp [ChunkDecoderState.setIndex, ChunkDecoderState.numRecords]

/-- Witness for C9 on a concrete decoder with three records. -/
theorem setIndex_spec_witness :
    (({ healthy := true, limits := [4, 9, 11], index := 0, valuesPos := 0 }
        : ChunkDecoderState).healthy = true) ∧
      ((({ healthy := true, limits := [4, 9, 11], index := 0, valuesPos := 0 }
          : ChunkDecoderState).setIndex 2).index =
          min 2 ({ healthy := true, limits := [4, 9, 11], index := 0, valuesPos := 0 }
            : ChunkDecoderState).numRecords ∧
        (({ healthy := true, limits := [4, 9, 11], index := 0, valuesPos := 0 }
            : ChunkDecoderState).setIndex 2).valuesPos =
          (if min 2 ({ healthy := true, limits := [4, 9, 11], index := 0, valuesPos := 0 }
              : ChunkDecoderState).numRecords = 0 then 0
           else ({ healthy := true, limits := [4, 9, 11], index := 0, valuesPos := 0 }
              : ChunkDecoderState).limits.getD
             (min 2 ({ healthy := true, limits := [4, 9, 11], index := 0, valuesPos := 0 }
                : ChunkDecoderState).numRecords - 1) 0) ∧
        (({ healthy := true, limits := [4, 9, 11], index := 0, valuesPos := 0 }
            : ChunkDecoderState).setIndex 2).index ≤
          (({ healthy := true, limits := [4, 9, 11], index := 0, valuesPos := 0 }
            : ChunkDecoderState).setIndex 2).numRecords) :=
  ⟨rfl, setIndex_spec { healthy := true, limits := [4, 9, 11], index := 0, valuesPos := 0 }
    2 rfl⟩

/-! ## Chunk and block headers (modelled from the spec, `chunk.h` and
`block.h` being external to the sources) -/

/-- Modelled from the spec: `stored_header_hash` of a chunk header, the
little-endian u64 in its first 8 bytes. -/
def hdrStored (h : List Nat) : Nat := leN (h.take 8)

/-- Modelled from the spec: `data_size` of a chunk header (bytes 8..15,
little-endian). -/
def hdrDataSize (h : List Nat) : Nat := leN ((h.drop 8).take 8)

/-- Modelled from the spec: `data_hash` of a chunk header (bytes 16..23,
little-endian). -/
def hdrDataHash (h : List Nat) : Nat := leN ((h.drop 16).take 8)

/-- Modelled from the spec: `chunk_type` of a chunk header (byte 24). -/
def hdrChunkType (h : List Nat) : Nat := h.getD 24 0

/-- Modelled from the spec: `num_records` of a chunk header (bytes 25..31,
little-endian, packed after the chunk type). -/
def hdrNumRecords (h : List Nat) : Nat := leN ((h.drop 25).take 7)

/-- Modelled from the spec: `decoded_data_size` of a chunk header
(bytes 32..39, little-endian). -/
def hdrDecodedDataSize (h : List Nat) : Nat := leN ((h.drop 32).take 8)

/-- Modelled from the spec: `computed_header_hash`, the hash of the header
bytes excluding the first 8. -/
def hdrComputedHash (hash : List Nat → Nat) (h : List Nat) : Nat := hash (h.drop 8)

/-- Modelled from the spec: the `ChunkType::kFileSignature` value; the spec
reserves the value, the format uses the byte 0x73. -/
def kFileSignature : Nat := 115

/-- Modelled from the spec: `stored_header_hash` of a block header (first 8
bytes, little-endian). -/
def bhStored (h : List Nat) : Nat := leN (h.take 8)

/-- Modelled from the spec: `previous_chunk` of a block header
(bytes 8..15, little-endian). -/
def bhPrevChunk (h : List Nat) : Nat := leN ((h.drop 8).take 8)

/-- Modelled from the spec: `next_chunk` of a block header (bytes 16..23,
little-endian). -/
def bhNextChunk (h : List Nat) : Nat := leN ((h.drop 16).take 8)

/-- Modelled from the spec: the computed hash of a block header, over its
bytes excluding the first 8. -/
def bhComputedHash (hash : List Nat → Nat) (h : List Nat) : Nat := hash (h.drop 8)

/-! ## Chunk reader (`riegeli/records/chunk_reader.cc`) -/

/-- Enum `ChunkReader::Recoverable`: which recovery action applies. -/
inductive Recoverable
  | no
  | haveChunk
  | findChunk
  | reportSkippedBytes
deriving DecidableEq

/-- A chunk: its 40 header bytes and its payload. -/
structure Chunk where
  header : List Nat
  data : List Nat
deriving DecidableEq

/-- The state of a `ChunkReader`:  health and closed flags of the `Object`
base, the current chunk position `pos_`, the byte source cursor (the byte
pos() of the byte reader), the partially read chunk header and payload of `chunk_`,
the most recently read block header bytes, the recovery descriptor and the
`current_chunk_is_incomplete_` flag. -/
structure ChunkReaderState where
  healthy : Bool
  closed : Bool
  pos : Nat
  spos : Nat
  headerBytes : List Nat
  chunkData : List Nat
  blockHeader : List Nat
  recoverable : Recoverable
  recoverablePos : Nat
  incomplete : Bool
deriving DecidableEq

/-- The pure byte source: reading `n` bytes at cursor `spos` from `src`.
Returns the success flag (all `n` bytes were available), the bytes actually
read, and the new cursor; on failure the cursor stops at the end of the
source, as a buffered reader consumes what it can before reporting EOF. -/
def byteRead (src : List Nat) (spos n : Nat) : Bool × List Nat × Nat :=
  if spos + n ≤ src.length then (true, (src.drop spos).take n, spos + n)
  else (false, (src.drop spos).take n, src.length)

/-- Seeking the byte source: fails (leaving the cursor at the end) when the
target lies past the end of the source, as `Reader::Seek` does on a pure
source; the source itself stays healthy. -/
def byteSeek (src : List Nat) (p : Nat) : Bool × Nat :=
  if p ≤ src.length then (true, p) else (false, src.length)

/-- Embeds `ChunkReader::ReadingFailed()`: the pure byte source is always healthy
(it only reports end of file), so the reader stays healthy and flags the
chunk as incomplete when the source position is past the chunk start. -/
def readingFailed (s : ChunkReaderState) : Bool × ChunkReaderState :=
  (false, if s.pos < s.spos then { s with incomplete := true } else s)

/-- Embeds `ChunkReader::ReadBlockHeader()`: if the cursor is inside the
block-header region of a block, read the remaining header bytes into the
block-header buffer and verify the stored hash. -/
def readBlockHeader (hash : List Nat → Nat) (src : List Nat)
    (s : ChunkReaderState) : Bool × ChunkReaderState :=
  let remaining := remainingInBlockHeader s.spos
  if remaining = 0 then (true, s)
  else
    match byteRead src s.spos remaining with
    | (false, bytes, spos2) =>
      readingFailed { s with
        blockHeader := s.blockHeader.take (blockHeaderSize - remaining) ++ bytes,
        spos := spos2 }
    | (true, bytes, spos2) =>
      let bh := s.blockHeader.take (blockHeaderSize - remaining) ++ bytes
      let s2 := { s with blockHeader := bh, spos := spos2 }
      if bhComputedHash hash bh ≠ bhStored bh then
        (false, { s2 with
                  healthy := false, recoverable := Recoverable.findChunk,
                  recoverablePos := s2.spos })
      else (true, s2)

/-- The `do`/`while` loop of `ChunkReader::ReadChunkHeader()`: read the
40 chunk-header bytes, skipping block headers, checking the
`previous_chunk` pointer at every block boundary, then verify the header
hash and (at position 0) the file signature.  Fuel-based; the header
shrinks by at least one byte per iteration, so `chunkHeaderSize + 1` fuel
suffices. -/
def readChunkHeaderLoop (hash : List Nat → Nat) (src : List Nat) :
    Nat → ChunkReaderState → Bool × ChunkReaderState
  | 0, s => (false, s)
  | fuel + 1, s =>
    let posBefore := s.spos
    match readBlockHeader hash src s with
    | (false, s1) => (false, s1)
    | (true, s1) =>
      if isBlockBoundary posBefore ∧ bhPrevChunk s1.blockHeader ≠ posBefore - s1.pos then
        (false, { s1 with
                  healthy := false, recoverable := Recoverable.findChunk,
                  recoverablePos := s1.spos })
      else
        let readSoFar := distanceWithoutOverhead s1.pos s1.spos
        let remaining := chunkHeaderSize - readSoFar
        let toRead := min remaining (remainingInBlock s1.spos)
        match byteRead src s1.spos toRead with
        | (false, bytes, spos2) =>
          readingFailed { s1 with
            headerBytes := s1.headerBytes.take readSoFar ++ bytes, spos := spos2 }
        | (true, bytes, spos2) =>
          let s2 := { s1 with
                    headerBytes := s1.headerBytes.take readSoFar ++ bytes,
                      spos := spos2 }
          if toRead < remaining then readChunkHeaderLoop hash src fuel s2
          else if hdrComputedHash hash s2.headerBytes ≠ hdrStored s2.headerBytes then
            (false, { s2 with
                  healthy := false, recoverable := Recoverable.findChunk,
                      recoverablePos := s2.spos })
          else if s2.pos = 0 ∧
              (hdrDataSize s2.headerBytes ≠ 0 ∨ hdrChunkType s2.headerBytes ≠ kFileSignature ∨
                hdrNumRecords s2.headerBytes ≠ 0 ∨ hdrDecodedDataSize s2.headerBytes ≠ 0) then
            (false, { s2 with
                  healthy := false, recoverable := Recoverable.findChunk,
                      recoverablePos := s2.spos })
          else (true, s2)

/-- Embeds `ChunkReader::PullChunkHeader()`: short-circuit when unhealthy, clear
the incomplete flag, reposition the byte source at `pos_` if it lags behind,
then read the chunk header unless it has already been read. -/
def pullChunkHeader (hash : List Nat → Nat) (src : List Nat)
    (s : ChunkReaderState) : Bool × ChunkReaderState :=
  if ¬ s.healthy then (false, s)
  else
    let s0 := { s with incomplete := false }
    let seekRes := if s0.spos < s0.pos then byteSeek src s0.pos else (true, s0.spos)
    let s1 := { s0 with spos := seekRes.2 }
    if ¬ seekRes.1 then readingFailed s1
    else if distanceWithoutOverhead s1.pos s1.spos < chunkHeaderSize then
      readChunkHeaderLoop hash src (chunkHeaderSize + 1) s1
    else (true, s1)

/-- The payload loop of `ChunkReader::ReadChunk()`: read `data_size` payload
bytes, skipping block headers and checking the `previous_chunk` pointer at
every crossed block boundary.  Fuel-based; at least one payload byte is
appended per iteration, so `data_size + 1` fuel suffices. -/
def readPayloadLoop (hash : List Nat → Nat) (src : List Nat) :
    Nat → ChunkReaderState → Bool × ChunkReaderState
  | 0, s => (false, s)
  | fuel + 1, s =>
    if s.chunkData.length < hdrDataSize s.headerBytes then
      let posBefore := s.spos
      match readBlockHeader hash src s with
      | (false, s1) => (false, s1)
      | (true, s1) =>
        if isBlockBoundary posBefore ∧ bhPrevChunk s1.blockHeader ≠ posBefore - s1.pos then
          (false, { s1 with
                  healthy := false, recoverable := Recoverable.findChunk,
                    recoverablePos := s1.spos })
        else
          let n := min (hdrDataSize s1.headerBytes - s1.chunkData.length)
            (remainingInBlock s1.spos)
          match byteRead src s1.spos n with
          | (false, bytes, spos2) =>
            readingFailed { s1 with chunkData := s1.chunkData ++ bytes, spos := spos2 }
          | (true, bytes, spos2) =>
            readPayloadLoop hash src fuel
              { s1 with chunkData := s1.chunkData ++ bytes, spos := spos2 }
    else (true, s)

/-- Embeds `ChunkReader::ReadChunk(Chunk* chunk)`: pull the chunk header, assemble
the payload, verify `Hash(payload) == data_hash`; on mismatch fail with a
`kHaveChunk` recovery descriptor pointing at the chunk end; on success move
the chunk out, advance `pos_` to the chunk end and reset the in-progress
chunk. -/
def readChunk (hash : List Nat → Nat) (src : List Nat) (s : ChunkReaderState) :
    Bool × ChunkReaderState × Option Chunk :=
  match pullChunkHeader hash src s with
  | (false, s1) => (false, s1, Option.none)
  | (true, s1) =>
    match readPayloadLoop hash src (hdrDataSize s1.headerBytes + 1) s1 with
    | (false, s2) => (false, s2, Option.none)
    | (true, s2) =>
      let ce := chunkEnd (hdrDataSize s2.headerBytes) s2.pos
      if hash s2.chunkData ≠ hdrDataHash s2.headerBytes then
        (false, { s2 with
                  healthy := false, recoverable := Recoverable.haveChunk,
                  recoverablePos := ce }, Option.none)
      else
        (true, { s2 with
                 pos := ce, headerBytes := [], chunkData := [] },
          some { header := s2.headerBytes, data := s2.chunkData })

/-- Embeds `ChunkReader::Done()`, run by `Close()`: clear the recovery descriptor;
if the reader is healthy but a chunk is in progress, fail with
`kReportSkippedBytes` carrying the number of consumed chunk bytes; finally
release the byte reader and reset the position and chunk state. -/
def closeReader (s : ChunkReaderState) : ChunkReaderState :=
  let s1 := { s with recoverable := Recoverable.no, recoverablePos := 0 }
  let s2 :=
    if s1.healthy ∧ s1.incomplete then
      { s1 with
        healthy := false, recoverable := Recoverable.reportSkippedBytes,
        recoverablePos := s1.spos - s1.pos }
    else s1
  { s2 with
    pos := 0, headerBytes := [], chunkData := [], incomplete := false,
    closed := true }

/-- Embeds `ChunkReader::Seek(Position new_pos)`: short-circuit when unhealthy, set
`pos_` and clear the chunk state, seek the byte source, then fail with a
`kFindChunk` descriptor at `new_pos` if the target is not a possible chunk
boundary. -/
def seek (src : List Nat) (s : ChunkReaderState) (newPos : Nat) :
    Bool × ChunkReaderState :=
  if ¬ s.healthy then (false, s)
  else
    let s1 := { s with
                pos := newPos, headerBytes := [], chunkData := [],
                incomplete := false }
    let s2 := { s1 with spos := (byteSeek src newPos).2 }
    if ¬ isPossibleChunkBoundary newPos then
      (false, { s2 with
                healthy := false, recoverable := Recoverable.findChunk,
                recoverablePos := newPos })
    else (true, s2)

/-- The `ChunkReader` constructor: the reader starts at the current position of the byte source and fails immediately with a `kFindChunk` descriptor at
that position when it is not a possible chunk boundary. -/
def mkChunkReader (initPos : Nat) : ChunkReaderState :=
  let s : ChunkReaderState :=
    { healthy := true, closed := false, pos := initPos, spos := initPos,
      headerBytes := [], chunkData := [], blockHeader := List.replicate 24 0,
      recoverable := Recoverable.no, recoverablePos := 0, incomplete := false }
  if ¬ isPossibleChunkBoundary initPos then
    { s with
      healthy := false, recoverable := Recoverable.findChunk,
      recoverablePos := initPos }
  else s

/-- The two labels of `ChunkReader::Recover`: `again` (classify the pending
descriptor) and `find_chunk` (resynchronise on block headers). -/
inductive RecoverPhase
  | again
  | find
deriving DecidableEq

/-- The `again` / `find_chunk` loop of `ChunkReader::Recover(Position*)`.
Carries the running `*skipped_bytes` value.  Fuel-based; `recover` supplies
enough fuel for the position to run past the end of the source. -/
def recoverLoop (hash : List Nat → Nat) (src : List Nat) :
    Nat → RecoverPhase → ChunkReaderState → Nat → Bool × ChunkReaderState × Nat
  | 0, _, s, skipped => (false, s, skipped)
  | fuel + 1, RecoverPhase.again, s, skipped =>
    let rec0 := s.recoverable
    let recPos0 := s.recoverablePos
    let s1 := { s with recoverable := Recoverable.no, recoverablePos := 0 }
    let recPos := if rec0 = Recoverable.findChunk
      then recPos0 + remainingInBlock recPos0 else recPos0
    let skipped1 := saturatingAdd skipped (recPos - s1.pos)
    let s2 := { s1 with healthy := true }
    if rec0 = Recoverable.reportSkippedBytes then (true, s2, skipped1)
    else
      let s3 := { s2 with pos := recPos, headerBytes := [], chunkData := [] }
      if rec0 = Recoverable.haveChunk then (true, s3, skipped1)
      else recoverLoop hash src fuel RecoverPhase.find s3 skipped1
  | fuel + 1, RecoverPhase.find, s, skipped =>
    match byteSeek src s.pos with
    | (false, spos2) => (true, { s with spos := spos2 }, skipped)
    | (true, spos2) =>
      let s1 := { s with spos := spos2 }
      match readBlockHeader hash src s1 with
      | (false, s2) =>
        if s2.recoverable ≠ Recoverable.no then
          recoverLoop hash src fuel RecoverPhase.again s2 skipped
        else (true, s2, skipped)
      | (true, s2) =>
        if bhPrevChunk s2.blockHeader = 0 then (true, s2, skipped)
        else
          let nextC := if bhNextChunk s2.blockHeader = 0 then kBlockSize
            else bhNextChunk s2.blockHeader
          let skipped1 := saturatingAdd skipped nextC
          let s3 := { s2 with pos := s2.pos + nextC }
          if bhNextChunk s2.blockHeader = 0 ∨ ¬ isPossibleChunkBoundary s3.pos then
            recoverLoop hash src fuel RecoverPhase.find s3 skipped1
          else (true, s3, skipped1)

/-- Embeds `ChunkReader::Recover(Position* skipped_bytes)`: applicable only when a
recovery descriptor is pending. -/
def recover (hash : List Nat → Nat) (src : List Nat) (s : ChunkReaderState)
    (skipped : Nat) : Bool × ChunkReaderState × Nat :=
  if s.recoverable = Recoverable.no then (false, s, skipped)
  else recoverLoop hash src (src.length + 2) RecoverPhase.again s skipped

/-! ## Concrete example data used by witnesses -/

/-- A healthy chunk reader positioned at offset 24 (a possible chunk
boundary just after the block header of block 0). -/
def exReader : ChunkReaderState :=
  { healthy := true, closed := false, pos := 24, spos := 24,
    headerBytes := [], chunkData := [], blockHeader := List.replicate 24 0,
    recoverable := Recoverable.no, recoverablePos := 0, incomplete := false }

/-- The length function used as a concrete stand-in hash in witnesses. -/
def exHash : List Nat → Nat := List.length

/-- A 40-byte chunk header for a 3-byte payload, consistent with `exHash`:
the stored header hash is 32 (the length of the hashed 32 bytes) and the
stored data hash is 3 (the length of the payload). -/
def exHeader : List Nat :=
  [32, 0, 0, 0, 0, 0, 0, 0] ++ [3, 0, 0, 0, 0, 0, 0, 0] ++
    [3, 0, 0, 0, 0, 0, 0, 0] ++ [3] ++ [0, 0, 0, 0, 0, 0, 0] ++
    [0, 0, 0, 0, 0, 0, 0, 0]

/-- A 67-byte file: 24 filler bytes standing for the header of block 0, then a
valid chunk at offset 24 with payload `[1, 2, 3]`. -/
def exSrc : List Nat := List.replicate 24 0 ++ exHeader ++ [1, 2, 3]

/-- The same file with the `data_hash` field of the chunk header set to 5, so
that the header hash still verifies but the payload hash does not. -/
def exHeaderBad : List Nat :=
  [32, 0, 0, 0, 0, 0, 0, 0] ++ [3, 0, 0, 0, 0, 0, 0, 0] ++
    [5, 0, 0, 0, 0, 0, 0, 0] ++ [3] ++ [0, 0, 0, 0, 0, 0, 0] ++
    [0, 0, 0, 0, 0, 0, 0, 0]

/-- The corrupted-payload-hash variant of `exSrc`. -/
def exSrcBad : List Nat := List.replicate 24 0 ++ exHeaderBad ++ [1, 2, 3]

/-! ## C6, C7, C10: close, seek, constructor -/

/-- C6: closing a healthy `ChunkReader` that has consumed part of a chunk
but not completed it (the byte source position strictly past the chunk
start) fails with recovery kind `kReportSkippedBytes` whose reported count
is the byte source position minus the chunk start; closing with no chunk in
progress does not fail for this reason. -/
theorem close_incomplete_spec (s : ChunkReaderState) (hh : s.healthy = true) :
    (s.incomplete = true → s.pos < s.spos →
      (closeReader s).healthy = false ∧
        (closeReader s).recoverable = Recoverable.reportSkippedBytes ∧
        (closeReader s).recoverablePos = s.spos - s.pos) ∧
      (s.incomplete = false →
        (closeReader s).healthy = true ∧
          (closeReader s).recoverable = Recoverable.no) := by
  unfold closeReader
  constructor
  · intro hi _
    simp [hh, hi]
  · intro hi
    simp [hh, hi]

/-- Witness for C6: a reader mid-chunk at position 24 with the source at 60
reports 36 skipped bytes on close; the same reader with no chunk in
progress closes cleanly. -/
theorem close_incomplete_spec_witness :
    (({ exReader with spos := 60, incomplete := true } : ChunkReaderState).healthy = true) ∧
      ((({ exReader with spos := 60, incomplete := true } : ChunkReaderState).incomplete = true →
          ({ exReader with spos := 60, incomplete := true } : ChunkReaderState).pos <
            ({ exReader with spos := 60, incomplete := true } : ChunkReaderState).spos →
          (closeReader { exReader with spos := 60, incomplete := true }).healthy = false ∧
            (closeReader { exReader with spos := 60, incomplete := true }).recoverable =
              Recoverable.reportSkippedBytes ∧
            (closeReader { exReader with spos := 60, incomplete := true }).recoverablePos =
              ({ exReader with spos := 60, incomplete := true } : ChunkReaderState).spos -
                ({ exReader with spos := 60, incomplete := true } : ChunkReaderState).pos) ∧
        (({ exReader with spos := 60, incomplete := true } : ChunkReaderState).incomplete = false →
          (closeReader { exReader with spos := 60, incomplete := true }).healthy = true ∧
            (closeReader { exReader with spos := 60, incomplete := true }).recoverable =
              Recoverable.no)) :=
  ⟨rfl, close_incomplete_spec { exReader with spos := 60, incomplete := true } rfl⟩

/-- C7: for a healthy reader and a position `p` that is not a possible chunk
boundary, `Seek(p)` sets `pos = p`, clears the in-progress chunk state, and
fails with recovery kind `kFindChunk` whose recoverable position is `p`
(rather than aborting). -/
theorem seek_invalid_boundary_spec (src : List Nat) (s : ChunkReaderState) (p : Nat)
    (hh : s.healthy = true) (hp : isPossibleChunkBoundary p = false) :
    (seek src s p).1 = false ∧
      (seek src s p).2.pos = p ∧
      (seek src s p).2.headerBytes = [] ∧
      (seek src s p).2.chunkData = [] ∧
      (seek src s p).2.incomplete = false ∧
      (seek src s p).2.healthy = false ∧
      (seek src s p).2.recoverable = Recoverable.findChunk ∧
      (seek src s p).2.recoverablePos = p := by
  unfold seek
  simp [hh, hp]

/-- Witness for C7: seeking `exReader` to offset 10 (inside the block-header
region) fails recoverably. -/
theorem seek_invalid_boundary_spec_witness :
    (exReader.healthy = true ∧ isPossibleChunkBoundary 10 = false) ∧
      ((seek exSrc exReader 10).1 = false ∧
        (seek exSrc exReader 10).2.pos = 10 ∧
        (seek exSrc exReader 10).2.headerBytes = [] ∧
        (seek exSrc exReader 10).2.chunkData = [] ∧
        (seek exSrc exReader 10).2.incomplete = false ∧
        (seek exSrc exReader 10).2.healthy = false ∧
        (seek exSrc exReader 10).2.recoverable = Recoverable.findChunk ∧
        (seek exSrc exReader 10).2.recoverablePos = 10) :=
  ⟨⟨rfl, by decide⟩, seek_invalid_boundary_spec exSrc exReader 10 rfl (by decide)⟩

/-- C10: constructing a `ChunkReader` over a byte source whose initial
position is not a possible chunk boundary yields a reader that is already
failed, with recovery kind `kFindChunk` and recoverable position equal to
the position (equal to `pos`, not strictly greater). -/
theorem mkChunkReader_invalid_pos_spec (p : Nat)
    (hp : isPossibleChunkBoundary p = false) :
    (mkChunkReader p).healthy = false ∧
      (mkChunkReader p).recoverable = Recoverable.findChunk ∧
      (mkChunkReader p).recoverablePos = p ∧
      (mkChunkReader p).pos = p ∧
      (mkChunkReader p).recoverablePos = (mkChunkReader p).pos := by
  unfold mkChunkReader
  simp [hp]

/-- Witness for C10 at initial position 10. -/
theorem mkChunkReader_invalid_pos_spec_witness :
    isPossibleChunkBoundary 10 = false ∧
      ((mkChunkReader 10).healthy = false ∧
        (mkChunkReader 10).recoverable = Recoverable.findChunk ∧
        (mkChunkReader 10).recoverablePos = 10 ∧
        (mkChunkReader 10).pos = 10 ∧
        (mkChunkReader 10).recoverablePos = (mkChunkReader 10).pos) :=
  ⟨by decide, mkChunkReader_invalid_pos_spec 10 (by decide)⟩

/-! ## Preservation lemmas for the read path -/

theorem readingFailed_pres (s : ChunkReaderState) :
    (readingFailed s).2.pos = s.pos ∧
      (readingFailed s).2.headerBytes = s.headerBytes ∧
      (readingFailed s).2.chunkData = s.chunkData := by
  unfold readingFailed
  split <;> exact ⟨rfl, rfl, rfl⟩

theorem readBlockHeader_pres (hash : List Nat → Nat) (src : List Nat)
    (s : ChunkReaderState) :
    (readBlockHeader hash src s).2.pos = s.pos ∧
      (readBlockHeader hash src s).2.headerBytes = s.headerBytes ∧
      (readBlockHeader hash src s).2.chunkData = s.chunkData := by
  unfold readBlockHeader
  dsimp only
  split
  · exact ⟨rfl, rfl, rfl⟩
  · split
    · exact readingFailed_pres _
    · split
      · exact ⟨rfl, rfl, rfl⟩
      · exact ⟨rfl, rfl, rfl⟩

theorem readChunkHeaderLoop_pres (hash : List Nat → Nat) (src : List Nat) :
    ∀ fuel s,
      (readChunkHeaderLoop hash src fuel s).2.pos = s.pos ∧
        (readChunkHeaderLoop hash src fuel s).2.chunkData = s.chunkData := by
  intro fuel
  induction fuel with
  | zero => intro s; exact ⟨rfl, rfl⟩
  | succ f ih =>
    intro s
    have hp := readBlockHeader_pres hash src s
    unfold readChunkHeaderLoop
    rcases hbh : readBlockHeader hash src s with ⟨ok, s1⟩
    rw [hbh] at hp
    cases ok
    · exact ⟨hp.1, hp.2.2⟩
    · dsimp only
      split
      · exact ⟨hp.1, hp.2.2⟩
      · rcases hbr : byteRead src s1.spos
            (min (chunkHeaderSize - distanceWithoutOverhead s1.pos s1.spos)
              (remainingInBlock s1.spos)) with ⟨okr, bytes, spos2⟩
        cases okr
        · dsimp only
          have hrf := readingFailed_pres
            { s1 with
              headerBytes :=
                s1.headerBytes.take (distanceWithoutOverhead s1.pos s1.spos) ++ bytes,
              spos := spos2 }
          exact ⟨hrf.1.trans hp.1, hrf.2.2.trans hp.2.2⟩
        · dsimp only
          split
          · have hi := ih
              { s1 with
                headerBytes :=
                  s1.headerBytes.take (distanceWithoutOverhead s1.pos s1.spos) ++ bytes,
                spos := spos2 }
            exact ⟨hi.1.trans hp.1, hi.2.trans hp.2.2⟩
          · split
            · exact ⟨hp.1, hp.2.2⟩
            · split
              · exact ⟨hp.1, hp.2.2⟩
              · exact ⟨hp.1, hp.2.2⟩

theorem pullChunkHeader_pres (hash : List Nat → Nat) (src : List Nat)
    (s : ChunkReaderState) :
    (pullChunkHeader hash src s).2.pos = s.pos ∧
      (pullChunkHeader hash src s).2.chunkData = s.chunkData := by
  unfold pullChunkHeader
  dsimp only
  split
  · exact ⟨rfl, rfl⟩
  · split
    all_goals
      split
      · exact ⟨(readingFailed_pres _).1.trans rfl, (readingFailed_pres _).2.2.trans rfl⟩
      · split
        · exact ⟨(readChunkHeaderLoop_pres hash src _ _).1.trans rfl,
            (readChunkHeaderLoop_pres hash src _ _).2.trans rfl⟩
        · exact ⟨rfl, rfl⟩

theorem readPayloadLoop_pres (hash : List Nat → Nat) (src : List Nat) :
    ∀ fuel s,
      (readPayloadLoop hash src fuel s).2.pos = s.pos ∧
        (readPayloadLoop hash src fuel s).2.headerBytes = s.headerBytes := by
  intro fuel
  induction fuel with
  | zero => intro s; exact ⟨rfl, rfl⟩
  | succ f ih =>
    intro s
    have hp := readBlockHeader_pres hash src s
    unfold readPayloadLoop
    dsimp only
    split
    · rcases hbh : readBlockHeader hash src s with ⟨ok, s1⟩
      rw [hbh] at hp
      cases ok
      · exact ⟨hp.1, hp.2.1⟩
      · dsimp only
        split
        · exact ⟨hp.1, hp.2.1⟩
        · rcases hbr : byteRead src s1.spos
              (min (hdrDataSize s1.headerBytes - s1.chunkData.length)
                (remainingInBlock s1.spos)) with ⟨okr, bytes, spos2⟩
          cases okr
          · dsimp only
            exact ⟨(readingFailed_pres _).1.trans hp.1,
              (readingFailed_pres _).2.1.trans hp.2.1⟩
          · dsimp only
            exact ⟨(ih _).1.trans hp.1, (ih _).2.trans hp.2.1⟩
    · exact ⟨rfl, rfl⟩

/-! ## C1 and C2: ReadChunk success and payload-hash mismatch -/

/-- C1: for a `ChunkReader` on which `PullChunkHeader` has succeeded, if
`ReadChunk(out)` returns true then the assembled payload satisfied
`Hash(payload) == chunk_header.data_hash`, the chunk (header plus payload)
has been moved into `out`, `pos` has been advanced to
`ChunkEnd(header, old pos)`, and the in-progress chunk state has been
cleared. -/
theorem readChunk_success_spec (hash : List Nat → Nat) (src : List Nat)
    (s : ChunkReaderState) (hpull : (pullChunkHeader hash src s).1 = true)
    (s2 : ChunkReaderState) (oc : Option Chunk)
    (hrun : readChunk hash src s = (true, s2, oc)) :
    ∃ c, oc = some c ∧
      hash c.data = hdrDataHash c.header ∧
      s2.pos = chunkEnd (hdrDataSize c.header) s.pos ∧
      s2.headerBytes = [] ∧ s2.chunkData = [] := by
  have hpres1 := pullChunkHeader_pres hash src s
  unfold readChunk at hrun
  rcases hp1 : pullChunkHeader hash src s with ⟨ok1, s1⟩
  rw [hp1] at hrun hpres1
  rw [hp1] at hpull
  cases ok1
  · exact Bool.noConfusion hpull
  · dsimp only at hrun
    have hpres2 := readPayloadLoop_pres hash src (hdrDataSize s1.headerBytes + 1) s1
    rcases hp2 : readPayloadLoop hash src (hdrDataSize s1.headerBytes + 1) s1
      with ⟨ok2, sp⟩
    rw [hp2] at hrun hpres2
    cases ok2
    · simp at hrun
    · dsimp only at hrun
      split at hrun
      · simp at hrun
      case isFalse hhash =>
        simp only [Prod.mk.injEq, true_and] at hrun
        obtain ⟨hs2, hoc⟩ := hrun
        have hpos : sp.pos = s.pos := hpres2.1.trans hpres1.1
        refine ⟨{ header := sp.headerBytes, data := sp.chunkData }, hoc.symm,
          not_ne_iff.mp hhash, ?_, ?_, ?_⟩
        · rw [← hs2]
          show chunkEnd (hdrDataSize sp.headerBytes) sp.pos =
            chunkEnd (hdrDataSize sp.headerBytes) s.pos
          rw [hpos]
        · rw [← hs2]
        · rw [← hs2]

/-- The reader state after the successful read of the witness chunk. -/
def exReaderDone : ChunkReaderState :=
  { healthy := true, closed := false, pos := 67, spos := 67,
    headerBytes := [], chunkData := [], blockHeader := List.replicate 24 0,
    recoverable := Recoverable.no, recoverablePos := 0, incomplete := false }

/-- Witness for C1: reading the valid chunk of `exSrc` from position 24. -/
theorem readChunk_success_spec_witness :
    ((pullChunkHeader exHash exSrc exReader).1 = true ∧
      readChunk exHash exSrc exReader =
        (true, exReaderDone, some { header := exHeader, data := [1, 2, 3] })) ∧
      ∃ c, (some { header := exHeader, data := [1, 2, 3] } : Option Chunk) = some c ∧
        exHash c.data = hdrDataHash c.header ∧
        exReaderDone.pos = chunkEnd (hdrDataSize c.header) exReader.pos ∧
        exReaderDone.headerBytes = [] ∧ exReaderDone.chunkData = [] :=
  ⟨⟨by decide, by decide⟩,
    readChunk_success_spec exHash exSrc exReader (by decide) exReaderDone
      (some { header := exHeader, data := [1, 2, 3] }) (by decide)⟩

/-- One-step behaviour of `Recover` on a `kHaveChunk` descriptor: the reader
becomes healthy again, `pos` moves to the recorded recoverable position, the
chunk state is reset and the skipped count grows by `recoverable_pos - pos`
(saturating). -/
theorem recover_haveChunk (hash : List Nat → Nat) (src : List Nat)
    (s : ChunkReaderState) (k : Nat)
    (hrec : s.recoverable = Recoverable.haveChunk) :
    recover hash src s k =
      (true,
        { s with
          recoverable := Recoverable.no, recoverablePos := 0, healthy := true,
          pos := s.recoverablePos, headerBytes := [], chunkData := [] },
        saturatingAdd k (s.recoverablePos - s.pos)) := by
  have h2 : src.length + 2 = src.length + 1 + 1 := rfl
  unfold recover
  rw [hrec, h2]
  simp only [recoverLoop, hrec]
  simp

/-- C2: when the hash of the chunk header verified (`PullChunkHeader` succeeded)
and the payload was fully assembled but its hash does not equal
`chunk_header.data_hash`, `ReadChunk` fails with recovery kind `kHaveChunk`
whose recoverable position is `ChunkEnd(header, pos)`; a subsequent
`Recover` returns true and sets `pos` to that chunk end. -/
theorem readChunk_hash_mismatch_spec (hash : List Nat → Nat) (src : List Nat)
    (s s1 sp : ChunkReaderState) (k : Nat)
    (hpull : pullChunkHeader hash src s = (true, s1))
    (hloop : readPayloadLoop hash src (hdrDataSize s1.headerBytes + 1) s1 = (true, sp))
    (hmm : hash sp.chunkData ≠ hdrDataHash sp.headerBytes) :
    readChunk hash src s =
      (false,
        { sp with
          healthy := false, recoverable := Recoverable.haveChunk,
          recoverablePos := chunkEnd (hdrDataSize sp.headerBytes) s.pos },
        Option.none) ∧
      (recover hash src
          { sp with
            healthy := false, recoverable := Recoverable.haveChunk,
            recoverablePos := chunkEnd (hdrDataSize sp.headerBytes) s.pos } k).1 = true ∧
      (recover hash src
          { sp with
            healthy := false, recoverable := Recoverable.haveChunk,
            recoverablePos := chunkEnd (hdrDataSize sp.headerBytes) s.pos } k).2.1.pos =
        chunkEnd (hdrDataSize sp.headerBytes) s.pos := by
  have hpres1 := pullChunkHeader_pres hash src s
  rw [hpull] at hpres1
  have hpres2 := readPayloadLoop_pres hash src (hdrDataSize s1.headerBytes + 1) s1
  rw [hloop] at hpres2
  have hpos : sp.pos = s.pos := hpres2.1.trans hpres1.1
  refine ⟨?_, ?_, ?_⟩
  · unfold readChunk
    rw [hpull]
    dsimp only
    rw [hloop]
    dsimp only
    rw [if_pos hmm, hpos]
  · rw [recover_haveChunk hash src _ k rfl]
  · rw [recover_haveChunk hash src _ k rfl]

/-- The reader state after pulling the witness chunk header whose stored
payload hash is wrong. -/
def exReaderPulledBad : ChunkReaderState :=
  { healthy := true, closed := false, pos := 24, spos := 64,
    headerBytes := exHeaderBad, chunkData := [], blockHeader := List.replicate 24 0,
    recoverable := Recoverable.no, recoverablePos := 0, incomplete := false }

/-- The same reader after assembling the 3-byte payload. -/
def exReaderLoopedBad : ChunkReaderState :=
  { exReaderPulledBad with chunkData := [1, 2, 3], spos := 67 }

/-- Witness for C2 on the corrupted-payload file `exSrcBad`. -/
theorem readChunk_hash_mismatch_spec_witness :
    (pullChunkHeader exHash exSrcBad exReader = (true, exReaderPulledBad) ∧
      readPayloadLoop exHash exSrcBad (hdrDataSize exReaderPulledBad.headerBytes + 1)
          exReaderPulledBad = (true, exReaderLoopedBad) ∧
      exHash exReaderLoopedBad.chunkData ≠ hdrDataHash exReaderLoopedBad.headerBytes) ∧
      (readChunk exHash exSrcBad exReader =
        (false,
          { exReaderLoopedBad with
            healthy := false, recoverable := Recoverable.haveChunk,
            recoverablePos := chunkEnd (hdrDataSize exReaderLoopedBad.headerBytes)
              exReader.pos },
          Option.none) ∧
        (recover exHash exSrcBad
            { exReaderLoopedBad with
              healthy := false, recoverable := Recoverable.haveChunk,
              recoverablePos := chunkEnd (hdrDataSize exReaderLoopedBad.headerBytes)
                exReader.pos } 0).1 = true ∧
        (recover exHash exSrcBad
            { exReaderLoopedBad with
              healthy := false, recoverable := Recoverable.haveChunk,
              recoverablePos := chunkEnd (hdrDataSize exReaderLoopedBad.headerBytes)
                exReader.pos } 0).2.1.pos =
          chunkEnd (hdrDataSize exReaderLoopedBad.headerBytes) exReader.pos) :=
  ⟨⟨by decide, by decide, by decide⟩,
    readChunk_hash_mismatch_spec exHash exSrcBad exReader exReaderPulledBad
      exReaderLoopedBad 0 (by decide) (by decide) (by decide)⟩

/-! ## Recovery: supporting lemmas and monotonicity -/

theorem byteSeek_ok (src : List Nat) (p q : Nat) (h : byteSeek src p = (true, q)) :
    q = p := by
  unfold byteSeek at h
  split at h
  · exact (Prod.mk.injEq _ _ _ _ ▸ h).2.symm
  · simp at h

theorem readBlockHeader_ok_pres (hash : List Nat → Nat) (src : List Nat)
    (s s2 : ChunkReaderState) (h : readBlockHeader hash src s = (true, s2)) :
    s2.recoverable = s.recoverable ∧ s2.pos = s.pos := by
  unfold readBlockHeader at h
  dsimp only at h
  split at h
  · obtain rfl : s = s2 := ((Prod.mk.injEq _ _ _ _).mp h).2
    exact ⟨rfl, rfl⟩
  · split at h
    · unfold readingFailed at h
      dsimp only at h
      split at h <;> simp at h
    · split at h
      · simp at h
      · obtain rfl := ((Prod.mk.injEq _ _ _ _).mp h).2
        exact ⟨rfl, rfl⟩

theorem readBlockHeader_fail_cases (hash : List Nat → Nat) (src : List Nat)
    (s s2 : ChunkReaderState) (h : readBlockHeader hash src s = (false, s2)) :
    (s2.recoverable = s.recoverable ∧ s2.pos = s.pos) ∨
      (s2.recoverable = Recoverable.findChunk ∧ s2.pos = s.pos ∧
        s2.recoverablePos = s.spos + remainingInBlockHeader s.spos ∧
        1 ≤ remainingInBlockHeader s.spos) := by
  unfold readBlockHeader at h
  dsimp only at h
  split at h
  · simp at h
  case isFalse hne =>
    split at h
    case h_1 bytes spos2 heq =>
      unfold readingFailed at h
      dsimp only at h
      split at h
      all_goals
        obtain rfl := ((Prod.mk.injEq _ _ _ _).mp h).2
        exact Or.inl ⟨rfl, rfl⟩
    case h_2 bytes spos2 heq =>
      have hspos : spos2 = s.spos + remainingInBlockHeader s.spos := by
        unfold byteRead at heq
        split at heq
        · exact ((Prod.mk.injEq _ _ _ _).mp ((Prod.mk.injEq _ _ _ _).mp heq).2).2.symm
        · simp at heq
      split at h
      · obtain rfl := ((Prod.mk.injEq _ _ _ _).mp h).2
        exact Or.inr ⟨rfl, rfl, hspos, by omega⟩
      · simp at h

theorem recoverLoop_pos_mono (hash : List Nat → Nat) (src : List Nat) :
    ∀ fuel,
      (∀ s k s2 k2,
        recoverLoop hash src fuel RecoverPhase.find s k = (true, s2, k2) →
        s.recoverable = Recoverable.no → s.pos ≤ s2.pos) ∧
      (∀ s k s2 k2,
        recoverLoop hash src fuel RecoverPhase.again s k = (true, s2, k2) →
        s.recoverable ≠ Recoverable.reportSkippedBytes →
        s.pos < s.recoverablePos → s.pos < s2.pos) := by
  intro fuel
  induction fuel with
  | zero =>
    constructor
    · intro s k s2 k2 h
      simp [recoverLoop] at h
    · intro s k s2 k2 h
      simp [recoverLoop] at h
  | succ f ih =>
    constructor
    · -- find phase
      intro s k s2 k2 hrun hnorec
      unfold recoverLoop at hrun
      rcases hseek : byteSeek src s.pos with ⟨oks, spos2⟩
      rw [hseek] at hrun
      cases oks
      · dsimp only at hrun
        obtain rfl := ((Prod.mk.injEq _ _ _ _).mp
          ((Prod.mk.injEq _ _ _ _).mp hrun).2).1
        exact Nat.le_refl _
      · dsimp only at hrun
        have hsp : spos2 = s.pos := byteSeek_ok src s.pos spos2 hseek
        rcases hbh : readBlockHeader hash src { s with spos := spos2 } with ⟨okb, sb⟩
        rw [hbh] at hrun
        cases okb
        · dsimp only at hrun
          rcases readBlockHeader_fail_cases hash src _ _ hbh with ⟨hrec, hpos⟩ | hfind
          · have hrec2 : sb.recoverable = s.recoverable := hrec
            have hpos2 : sb.pos = s.pos := hpos
            rw [if_neg (by simp [hrec2, hnorec])] at hrun
            obtain rfl := ((Prod.mk.injEq _ _ _ _).mp
              ((Prod.mk.injEq _ _ _ _).mp hrun).2).1
            omega
          · obtain ⟨hrec, hpos, hrpos, hrem⟩ := hfind
            have hrec2 : sb.recoverable = Recoverable.findChunk := hrec
            have hpos2 : sb.pos = s.pos := hpos
            have hrpos2 : sb.recoverablePos = spos2 + remainingInBlockHeader spos2 := hrpos
            have hrem2 : 1 ≤ remainingInBlockHeader spos2 := hrem
            rw [if_pos (by simp [hrec2])] at hrun
            have hlt : sb.pos < sb.recoverablePos := by omega
            have := ih.2 sb k s2 k2 hrun (by simp [hrec2]) hlt
            omega
        · dsimp only at hrun
          obtain ⟨hrec, hpos⟩ := readBlockHeader_ok_pres hash src _ _ hbh
          have hrec2 : sb.recoverable = s.recoverable := hrec
          have hpos2 : sb.pos = s.pos := hpos
          split at hrun
          · obtain rfl := ((Prod.mk.injEq _ _ _ _).mp
              ((Prod.mk.injEq _ _ _ _).mp hrun).2).1
            omega
          · split at hrun
            case isTrue hn0 =>
              split at hrun
              · have hge := ih.1 _ _ s2 k2 hrun (hrec2.trans hnorec)
                have hge2 : sb.pos + kBlockSize ≤ s2.pos := hge
                have hbs : (1 : Nat) ≤ kBlockSize := by decide
                omega
              · obtain rfl := ((Prod.mk.injEq _ _ _ _).mp
                  ((Prod.mk.injEq _ _ _ _).mp hrun).2).1
                have hbs : (1 : Nat) ≤ kBlockSize := by decide
                have hp3 : s.pos + 0 ≤ sb.pos + kBlockSize := by omega
                omega
            case isFalse hn0 =>
              have hn1 : 1 ≤ bhNextChunk sb.blockHeader := by omega
              split at hrun
              · have hge := ih.1 _ _ s2 k2 hrun (hrec2.trans hnorec)
                have hge2 : sb.pos + bhNextChunk sb.blockHeader ≤ s2.pos := hge
                omega
              · obtain rfl := ((Prod.mk.injEq _ _ _ _).mp
                  ((Prod.mk.injEq _ _ _ _).mp hrun).2).1
                have hb1 : ({ s with spos := spos2 } : ChunkReaderState).pos = s.pos := rfl
                have hb2 : ({ sb with pos := sb.pos + bhNextChunk sb.blockHeader }
                    : ChunkReaderState).pos = sb.pos + bhNextChunk sb.blockHeader := rfl
                omega
    · -- again phase
      intro s k s2 k2 hrun hkind hfwd
      unfold recoverLoop at hrun
      dsimp only at hrun
      split at hrun
      case isTrue hrsb => exact absurd hrsb hkind
      case isFalse hrsb =>
        split at hrun
        · obtain rfl := ((Prod.mk.injEq _ _ _ _).mp
            ((Prod.mk.injEq _ _ _ _).mp hrun).2).1
          by_cases hf : s.recoverable = Recoverable.findChunk
          · have hp : s.recoverablePos + remainingInBlock s.recoverablePos ≤
                s.recoverablePos + remainingInBlock s.recoverablePos := Nat.le_refl _
            have := remainingInBlock_pos s.recoverablePos
            simp only [hf, if_pos] at *
            omega
          · simp only [if_neg hf]
            omega
        · have hge := ih.1 _ _ s2 k2 hrun rfl
          by_cases hf : s.recoverable = Recoverable.findChunk
          · rw [if_pos hf] at hge hrun
            have hge2 : s.recoverablePos + remainingInBlock s.recoverablePos ≤ s2.pos := hge
            have := remainingInBlock_pos s.recoverablePos
            omega
          · rw [if_neg hf] at hge hrun
            have hge2 : s.recoverablePos ≤ s2.pos := hge
            omega

/-- One-step behaviour of `Recover` on a `kReportSkippedBytes` descriptor:
the reader is marked not failed and the skipped count grows by
`recoverable_pos - pos` (saturating); `pos` is not changed. -/
theorem recover_reportSkipped (hash : List Nat → Nat) (src : List Nat)
    (s : ChunkReaderState) (k : Nat)
    (hrec : s.recoverable = Recoverable.reportSkippedBytes) :
    recover hash src s k =
      (true,
        { s with recoverable := Recoverable.no, recoverablePos := 0, healthy := true },
        saturatingAdd k (s.recoverablePos - s.pos)) := by
  have h2 : src.length + 2 = src.length + 1 + 1 := rfl
  unfold recover
  rw [hrec, h2]
  simp only [recoverLoop, hrec]
  simp

/-! ## C3: recovery monotonicity (corrected) -/

/-- C3 (amended): for a failed `ChunkReader` whose applicable recovery
descriptor is of a kind other than `kReportSkippedBytes` and whose
recoverable position lies forwards of `pos` (the invariant the code asserts),
if `Recover` returns true then the new `pos` is strictly greater than the
old `pos`.  For a `kReportSkippedBytes` recovery (close of a truncated
file) `pos` is unchanged, which is the counterexample to the claim as
stated. -/
theorem recover_monotone_spec (hash : List Nat → Nat) (src : List Nat)
    (s : ChunkReaderState) (k : Nat)
    (happ : s.recoverable ≠ Recoverable.no)
    (hkind : s.recoverable ≠ Recoverable.reportSkippedBytes)
    (hfwd : s.pos < s.recoverablePos)
    (s2 : ChunkReaderState) (k2 : Nat)
    (hrun : recover hash src s k = (true, s2, k2)) :
    s.pos < s2.pos := by
  unfold recover at hrun
  rw [if_neg happ] at hrun
  exact (recoverLoop_pos_mono hash src (src.length + 2)).2 s k s2 k2 hrun hkind hfwd

/-- The failed state that the C2 scenario leaves behind: used to witness
that monotone recovery applies to a `kHaveChunk` descriptor. -/
def exFailedHaveChunk : ChunkReaderState :=
  { exReaderLoopedBad with
    healthy := false, recoverable := Recoverable.haveChunk, recoverablePos := 67 }

/-- Witness for C3 on a concrete `kHaveChunk` recovery. -/
theorem recover_monotone_spec_witness :
    (exFailedHaveChunk.recoverable ≠ Recoverable.no ∧
      exFailedHaveChunk.recoverable ≠ Recoverable.reportSkippedBytes ∧
      exFailedHaveChunk.pos < exFailedHaveChunk.recoverablePos ∧
      recover exHash exSrcBad exFailedHaveChunk 0 =
        (true, (recover exHash exSrcBad exFailedHaveChunk 0).2.1,
          (recover exHash exSrcBad exFailedHaveChunk 0).2.2)) ∧
      exFailedHaveChunk.pos < (recover exHash exSrcBad exFailedHaveChunk 0).2.1.pos :=
  ⟨⟨by decide, by decide, by decide, by decide⟩,
    recover_monotone_spec exHash exSrcBad exFailedHaveChunk 0 (by decide) (by decide)
      (by decide) (recover exHash exSrcBad exFailedHaveChunk 0).2.1
      (recover exHash exSrcBad exFailedHaveChunk 0).2.2 (by decide)⟩

/-- The closed reader obtained by closing a healthy reader mid-chunk: its
recovery descriptor is `kReportSkippedBytes`. -/
def exClosedRSB : ChunkReaderState :=
  closeReader { exReader with spos := 60, incomplete := true }

/-- Counterexample to C3 as stated: an applicable `kReportSkippedBytes`
recovery on a failed (closed) reader returns true but leaves `pos`
unchanged, so the new `pos` is not strictly greater than the old one. -/
theorem recover_monotone_counterexample :
    exClosedRSB.healthy = false ∧
      exClosedRSB.recoverable ≠ Recoverable.no ∧
      (recover exHash exSrc exClosedRSB 0).1 = true ∧
      ¬ exClosedRSB.pos < (recover exHash exSrc exClosedRSB 0).2.1.pos := by
  decide

/-! ## C4: the skipped-bytes increment (corrected) -/

/-- C4 (amended): for a failed `ChunkReader` with an applicable recovery
descriptor of kind `kHaveChunk` or `kReportSkippedBytes`, `Recover`
increments `*skipped_out` by exactly `recoverable_pos - pos` with saturating
addition.  For `kFindChunk` the increment can exceed that amount: the
recoverable position is first rounded up to the next block boundary and each
followed block-header pointer adds a further increment, which is the
counterexample to the claim as stated. -/
theorem recover_skipped_exact_spec (hash : List Nat → Nat) (src : List Nat)
    (s : ChunkReaderState) (k : Nat)
    (happ : s.recoverable ≠ Recoverable.no)
    (hkind : s.recoverable ≠ Recoverable.findChunk) :
    (recover hash src s k).1 = true ∧
      (recover hash src s k).2.2 = saturatingAdd k (s.recoverablePos - s.pos) := by
  rcases hr : s.recoverable with _ | _ | _ | _
  · exact absurd hr happ
  · rw [recover_haveChunk hash src s k hr]
    exact ⟨rfl, rfl⟩
  · exact absurd hr hkind
  · rw [recover_reportSkipped hash src s k hr]
    exact ⟨rfl, rfl⟩

/-- Witness for C4 on the concrete `kHaveChunk` recovery of the C2
scenario: the skipped count grows by exactly `67 - 24 = 43`. -/
theorem recover_skipped_exact_spec_witness :
    (exFailedHaveChunk.recoverable ≠ Recoverable.no ∧
      exFailedHaveChunk.recoverable ≠ Recoverable.findChunk) ∧
      ((recover exHash exSrcBad exFailedHaveChunk 0).1 = true ∧
        (recover exHash exSrcBad exFailedHaveChunk 0).2.2 =
          saturatingAdd 0 (exFailedHaveChunk.recoverablePos - exFailedHaveChunk.pos)) :=
  ⟨⟨by decide, by decide⟩,
    recover_skipped_exact_spec exHash exSrcBad exFailedHaveChunk 0 (by decide) (by decide)⟩

/-- A failed reader with a `kFindChunk` descriptor at position 64, chunk
position 24, over the 67-byte example file. -/
def exFailedFindChunk : ChunkReaderState :=
  { exReader with
    healthy := false, recoverable := Recoverable.findChunk, recoverablePos := 64,
    spos := 64 }

/-- Counterexample to C4 as stated: recovering from a `kFindChunk`
descriptor with `recoverable_pos = 64` and `pos = 24` increments the skipped
count by 65512 (the distance to the next block boundary), not by
`recoverable_pos - pos = 40`. -/
theorem recover_skipped_counterexample :
    exFailedFindChunk.recoverable ≠ Recoverable.no ∧
      (recover exHash exSrc exFailedFindChunk 0).1 = true ∧
      (recover exHash exSrc exFailedFindChunk 0).2.2 = 65512 ∧
      (recover exHash exSrc exFailedFindChunk 0).2.2 ≠
        saturatingAdd 0 (exFailedFindChunk.recoverablePos - exFailedFindChunk.pos) := by
  decide

end Riegeli
